import Mathlib

/-!
# CairoTSPlot: a time-series plot widget (`src/CairoTSPlot.hh`)

A shallow embedding of the widget's data model (`value_struct`, the ring buffer
`_data` with its head cursor, the changed flag, the value domain) and of the
member functions `CairoTSPlot::CairoTSPlot`, `on_size_allocate`, `sample`,
`update` and `yoffset_of`, followed by theorems about them.

Modelling decisions.

* The widget is used sequentially: `std::atomic_uint` / `std::atomic_bool` are
  a machine word and a flag, `fetch_add(1)` returns the old value and stores
  the old value plus one modulo `2 ^ 32`.
* A C++ `double` is a value of `Double`: a finite value (a rational), the two
  infinities, or NaN.  The sign of a zero is not represented; it can only
  influence the sign of an infinity produced by a division by zero, and every
  non-finite intermediate result of `yoffset_of` ends in the same undefined
  `static_cast<int>`.
* Double arithmetic is parameterised by a `FloatModel`: `exact` performs every
  operation without rounding error and casts by plain truncation, `binary64`
  rounds every operation to the nearest IEEE 754 double (ties to even) and makes
  `static_cast<int>` undefined outside the range of a 32-bit `int`.
* `std::chrono::steady_clock` time points are integer tick counts in
  nanoseconds since the clock's epoch, and a default-constructed time point is
  the epoch.  The tick counts are unbounded integers: with time points that do
  not decrease, `timepoint - _lasttimepoint` subtracts the epoch or an earlier
  positive time point and stays within the 64-bit range of the operands.  The
  conversion of that difference to `std::chrono::duration<double>` is done in
  the chosen `FloatModel`.
* The toolkit is reduced to what the modelled functions exchange with it: the
  sampling callback is a function of the opaque argument and of the incoming
  alert flag, returning the sample and the outgoing alert flag; `update` returns
  the list of `invalidate_rect` requests it issues.  Text, colours, the transform
  matrix and the cached background surface play no role in the modelled
  functions and are left out of the state, except `_text`.
-/

/-! ## Doubles -/

/-- A C++ `double`: a finite value, `+inf`, `-inf` or NaN. -/
inductive Double where
  | fin (q : ℚ)
  | pinf
  | ninf
  | nan
  deriving DecidableEq

/-- The value of the macro `HUGE_VAL` of `<cmath>`: positive infinity. -/
def HUGE_VAL : Double := Double.pinf

/-- The meaning given to double arithmetic: `rnd q` is the double produced by
an operation whose exact result is `q`, and `to_int q` is `static_cast<int>` of the
finite double `q` (`none` when the conversion is undefined). -/
structure FloatModel where
  rnd : ℚ → Double
  to_int : ℚ → Option ℤ

/-- Truncation toward zero, the rounding of a floating-integral conversion. -/
def trunc (q : ℚ) : ℤ := if 0 ≤ q then ⌊q⌋ else ⌈q⌉

/-- Two to an integer power, as a rational. -/
def pow2 (e : ℤ) : ℚ :=
  if 0 ≤ e then ((2 ^ e.toNat : ℕ) : ℚ) else 1 / ((2 ^ (-e).toNat : ℕ) : ℚ)

/-- Position of the leading one bit of `n` (zero for `n ≤ 1`), by repeated
halving; the first argument bounds the number of halvings. -/
def log2_halving : ℕ → ℕ → ℕ
  | 0, _ => 0
  | fuel + 1, n => if n < 2 then 0 else log2_halving fuel (n / 2) + 1

/-- The integer part of the binary logarithm of `n ≥ 1`. -/
def nat_log2 (n : ℕ) : ℕ := log2_halving n n

/-- The binary exponent of a non-zero rational: the `e` with
`2 ^ e ≤ |q| < 2 ^ (e + 1)`.  The difference of the binary logarithms of
numerator and denominator is `e` or `e + 1`. -/
def ilog2 (q : ℚ) : ℤ :=
  let e0 : ℤ := (nat_log2 q.num.natAbs : ℤ) - (nat_log2 q.den : ℤ)
  if pow2 e0 ≤ |q| then e0 else e0 - 1

/-- Round to the nearest integer, ties to the even one. -/
def rne (q : ℚ) : ℤ :=
  let f := ⌊q⌋
  let r := q - f
  if r < 1 / 2 then f
  else if 1 / 2 < r then f + 1
  else if f % 2 = 0 then f else f + 1

/-- IEEE 754 binary64 rounding (round to nearest, ties to even) of an exact
result: 53 significant bits, least normal exponent `-1022` (below it the spacing
stays `2 ^ (-1074)`: subnormals), overflow to an infinity when the rounded
magnitude reaches `2 ^ 1024`. -/
def round64 (q : ℚ) : Double :=
  if q = 0 then Double.fin 0
  else
    let e := max (ilog2 q) (-1022)
    let u := pow2 (e - 52)
    let r : ℚ := (rne (q / u) : ℚ) * u
    if pow2 1024 ≤ |r| then (if 0 < q then Double.pinf else Double.ninf) else Double.fin r

/-- Least value of a 32-bit `int`. -/
def INT_MIN : ℤ := -2147483648

/-- Greatest value of a 32-bit `int`. -/
def INT_MAX : ℤ := 2147483647

/-- Arithmetic taken exactly: no rounding, and the `int` cast is truncation
toward zero. -/
def FloatModel.exact : FloatModel where
  rnd := Double.fin
  to_int := fun q => some (trunc q)

/-- IEEE 754 double arithmetic: every operation is rounded by `round64`, and
`static_cast<int>` truncates toward zero when the truncated value is an `int`
and is undefined otherwise. -/
def FloatModel.binary64 : FloatModel where
  rnd := round64
  to_int := fun q => if INT_MIN ≤ trunc q ∧ trunc q ≤ INT_MAX then some (trunc q) else none

/-- Subtraction `a - b` of doubles. -/
def Double.sub (M : FloatModel) : Double → Double → Double
  | .fin a, .fin b => M.rnd (a - b)
  | .nan, _ => .nan
  | _, .nan => .nan
  | .pinf, .pinf => .nan
  | .ninf, .ninf => .nan
  | .pinf, _ => .pinf
  | .ninf, _ => .ninf
  | .fin _, .pinf => .ninf
  | .fin _, .ninf => .pinf

/-- Division `a / b` of doubles; a zero divisor gives an infinity or NaN. -/
def Double.div (M : FloatModel) : Double → Double → Double
  | .fin a, .fin b =>
    if b = 0 then (if a = 0 then .nan else if 0 < a then .pinf else .ninf) else M.rnd (a / b)
  | .nan, _ => .nan
  | _, .nan => .nan
  | .fin _, _ => .fin 0
  | .pinf, .fin b => if 0 ≤ b then .pinf else .ninf
  | .ninf, .fin b => if 0 ≤ b then .ninf else .pinf
  | _, _ => .nan

/-- Multiplication `a * b` of doubles. -/
def Double.mul (M : FloatModel) : Double → Double → Double
  | .fin a, .fin b => M.rnd (a * b)
  | .nan, _ => .nan
  | _, .nan => .nan
  | .fin a, .pinf => if a = 0 then .nan else if 0 < a then .pinf else .ninf
  | .fin a, .ninf => if a = 0 then .nan else if 0 < a then .ninf else .pinf
  | .pinf, .fin b => if b = 0 then .nan else if 0 < b then .pinf else .ninf
  | .ninf, .fin b => if b = 0 then .nan else if 0 < b then .ninf else .pinf
  | .pinf, .pinf => .pinf
  | .ninf, .ninf => .pinf
  | .pinf, .ninf => .ninf
  | .ninf, .pinf => .ninf

/-- The comparison `a >= b` of doubles; it is false when an operand is NaN. -/
def Double.ge : Double → Double → Bool
  | .nan, _ => false
  | _, .nan => false
  | .pinf, _ => true
  | _, .ninf => true
  | .ninf, _ => false
  | .fin _, .pinf => false
  | .fin a, .fin b => decide (b ≤ a)

/-- A positive normal double: `n * 2 ^ (e - 52)` with a 53-bit significand `n`
and an exponent `e` in the normal range. -/
def is_normal_double (x : ℚ) (e n : ℤ) : Prop :=
  -1022 ≤ e ∧ e ≤ 1023 ∧ 2 ^ 52 ≤ n ∧ n < 2 ^ 53 ∧ x = (n : ℚ) * pow2 (e - 52)

/-! ## Data model -/

/-- The macro `NUM_POINTS`: number of slots of the ring buffer, a power of two. -/
def NUM_POINTS : ℕ := 512

/-- The macro `MARGIN_TOP`. -/
def MARGIN_TOP : ℤ := 40

/-- The macro `MARGIN_BOTTOM`. -/
def MARGIN_BOTTOM : ℤ := 32

/-- Number of values of `unsigned int`, the type behind `std::atomic_uint`. -/
def UINT_MODULUS : ℕ := 2 ^ 32

/-- Ticks of `std::chrono::steady_clock` per second. -/
def TICKS_PER_SECOND : ℤ := 1000000000

/-- The count of the `std::chrono::duration<double>` (seconds) into which a
`steady_clock` duration of `d` ticks is converted: as `duration_cast` prescribes,
`static_cast<double>(d) / static_cast<double>(1000000000)`. -/
def duration_count (R : FloatModel) (d : ℤ) : Double :=
  Double.div R (R.rnd (d : ℚ)) (R.rnd (TICKS_PER_SECOND : ℚ))

/-- One sample of the plot, `CairoTSPlot::value_struct`.  `timepoint` is a
`steady_clock` time point in ticks since the clock's epoch. -/
structure value_struct where
  value : Double
  is_alerted : Bool
  has_timepoint : Bool
  timepoint : ℤ
  deriving DecidableEq

/-- The constructor `value_struct()`: the value is `HUGE_VAL`, both flags are
`FALSE`, and the time point is default-constructed, that is the epoch. -/
def value_struct.init : value_struct where
  value := HUGE_VAL
  is_alerted := false
  has_timepoint := false
  timepoint := 0

/-- The type `sample_fn_t`, `std::function<double(void *, bool &)>`: from the
opaque argument and the flag found in the `bool &`, the returned sample and the
flag left in the `bool &`. -/
abbrev sample_fn_t (α : Type) : Type := α → Bool → Double × Bool

/-- The state of a `CairoTSPlot`; `α` is the type of the opaque `void *`
argument handed to the sampling function. -/
structure CairoTSPlot (α : Type) where
  _text : String
  _sample_fn : sample_fn_t α
  _data : Fin NUM_POINTS → value_struct
  _data_head : ℕ
  _data_changed : Bool
  _lasttimepoint : ℤ
  _value_min : Double
  _value_max : Double
  _tick_step : Double
  _data_height : Double

/-- A `Gdk::Rectangle`. -/
structure Rectangle where
  x : ℤ
  y : ℤ
  width : ℤ
  height : ℤ
  deriving DecidableEq

namespace CairoTSPlot

variable {α : Type}

/-- The constructor `CairoTSPlot(text, fn, _m, _M, step)`.  It stores its
arguments, allocates `NUM_POINTS` default-constructed slots, and zeroes the head
cursor and the changed flag; `_lasttimepoint` is default-constructed (the epoch).
`_data_height` is not initialised by the constructor: `height0` stands for the
indeterminate content of that member. -/
def create (text : String) (fn : sample_fn_t α) (_m _M step height0 : Double) : CairoTSPlot α where
  _text := text
  _sample_fn := fn
  _data := fun _ => value_struct.init
  _data_head := 0
  _data_changed := false
  _lasttimepoint := 0
  _value_min := _m
  _value_max := _M
  _tick_step := step
  _data_height := height0

/-- The override `on_size_allocate(allocation)`, as far as the plotted state
goes: `_data_height` becomes the allocated height minus the top and bottom
margins (an `int`, converted to `double` without error). -/
def on_size_allocate (w : CairoTSPlot α) (allocation_height : ℤ) : CairoTSPlot α :=
  { w with _data_height := Double.fin ((allocation_height - MARGIN_TOP - MARGIN_BOTTOM : ℤ) : ℚ) }

/-- The index computed by the macro `_circbuf_get(_b, _i)`:
`(_i) & (NUM_POINTS - 1)`. -/
def _circbuf_idx (i : ℕ) : Fin NUM_POINTS :=
  ⟨i &&& (NUM_POINTS - 1), Nat.lt_succ_of_le Nat.and_le_right⟩

/-- The member function `sample(arg, timepoint)`.

`_diff` is the duration since `_lasttimepoint` converted to seconds in a
`double`, and `hastimepoint` the test `_diff.count() >= 5.0f`.  `fetch_add(1)`
hands the old head to `_circbuf_get` and advances the cursor modulo `2 ^ 32`.
The sampling function receives the slot's `is_alerted` by reference and its
result is stored in the slot's `value`; `has_timepoint` is assigned, and when it
is set the time point is stored in the slot and in `_lasttimepoint`; the changed
flag is set. -/
def sample (R : FloatModel) (w : CairoTSPlot α) (arg : α) (timepoint : ℤ) : CairoTSPlot α :=
  let _diff : Double := duration_count R (timepoint - w._lasttimepoint)
  let hastimepoint : Bool := Double.ge _diff (Double.fin 5)
  let i := _circbuf_idx w._data_head
  let _s := w._data i
  let r := w._sample_fn arg _s.is_alerted
  { w with
    _data := Function.update w._data i
      { value := r.1
        is_alerted := r.2
        has_timepoint := hastimepoint
        timepoint := if hastimepoint then timepoint else _s.timepoint }
    _data_head := (w._data_head + 1) % UINT_MODULUS
    _data_changed := true
    _lasttimepoint := if hastimepoint then timepoint else w._lasttimepoint }

/-- The member function `update()`: when the changed flag is set it is cleared
and one `invalidate_rect` request for the rectangle `(0, 0, width, height)` of
the current allocation is issued; otherwise nothing happens.  The result is the
new state and the list of rectangles requested. -/
def update (w : CairoTSPlot α) (alloc_width alloc_height : ℤ) : CairoTSPlot α × List Rectangle :=
  if w._data_changed then
    ({ w with _data_changed := false }, [⟨0, 0, alloc_width, alloc_height⟩])
  else (w, [])

/-- The member function `yoffset_of(value)`:
`static_cast<int>((value - _value_min) / (_value_max - _value_min) * _data_height)`.
The result is the `int` produced by the cast (returned as a `double` by the
source); `none` when the cast is undefined: the operand is not finite, or its
truncation is not an `int`. -/
def yoffset_of (M : FloatModel) (w : CairoTSPlot α) (value : Double) : Option ℤ :=
  match Double.mul M
      (Double.div M (Double.sub M value w._value_min) (Double.sub M w._value_max w._value_min))
      w._data_height with
  | .fin q => M.to_int q
  | _ => none

/-- The state reached from `w` by `n` successive calls of `sample`, the `k`-th
call (counted from zero) with argument `args k` and time point `tps k`. -/
def sample_seq (R : FloatModel) (w : CairoTSPlot α) (args : ℕ → α) (tps : ℕ → ℤ) :
    ℕ → CairoTSPlot α
  | 0 => w
  | n + 1 => (sample_seq R w args tps n).sample R (args n) (tps n)

/-- The slot reserved by call number `k` of a sequence, as that call leaves it. -/
def sample_seq_slot (R : FloatModel) (w : CairoTSPlot α) (args : ℕ → α) (tps : ℕ → ℤ) (k : ℕ) :
    value_struct :=
  (sample_seq R w args tps (k + 1))._data (_circbuf_idx (sample_seq R w args tps k)._data_head)

/-- A sampling function for examples: the argument is the sample, and the
alert flag is left as it was found. -/
def pass_through_fn : sample_fn_t ℚ := fun a b => (Double.fin a, b)

/-- Time points for examples: call `k` is made `6 + 2 * k` seconds after the
epoch of the clock. -/
def example_timepoints (k : ℕ) : ℤ := 6000000000 + 2000000000 * (k : ℤ)

/-- A widget for examples: domain `[0, 100]`, no axis ticks, allocated a height
of 172 pixels, hence a plotted height of 100. -/
def example_plot : CairoTSPlot ℚ :=
  (create "plot" pass_through_fn (Double.fin 0) (Double.fin 100) (Double.fin 0) (Double.fin 0)).on_size_allocate 172

end CairoTSPlot

/-! ## The rounding of doubles -/

theorem pow2_eq_zpow (e : ℤ) : pow2 e = (2 : ℚ) ^ e := by
  unfold pow2
  split_ifs with h
  · obtain ⟨n, rfl⟩ := Int.eq_ofNat_of_zero_le h
    simp
  · push_neg at h
    obtain ⟨n, hn⟩ := Int.eq_ofNat_of_zero_le (show 0 ≤ -e by omega)
    have he : e = -(n : ℤ) := by omega
    subst he
    simp

theorem pow2_pos (e : ℤ) : 0 < pow2 e := by
  rw [pow2_eq_zpow]
  positivity

theorem log2_halving_spec (fuel n : ℕ) (hfuel : n ≤ fuel) (hn : n ≠ 0) :
    2 ^ log2_halving fuel n ≤ n ∧ n < 2 ^ (log2_halving fuel n + 1) := by
  induction fuel generalizing n with
  | zero => omega
  | succ fuel ih =>
    rw [log2_halving]
    split_ifs with h2
    · simp
      omega
    · obtain ⟨h1, h3⟩ := ih (n / 2) (by omega) (by omega)
      rw [pow_succ] at h3 ⊢
      rw [pow_succ]
      constructor <;> omega

theorem nat_log2_spec (n : ℕ) (hn : n ≠ 0) :
    2 ^ nat_log2 n ≤ n ∧ n < 2 ^ (nat_log2 n + 1) :=
  log2_halving_spec n n le_rfl hn

/-- The binary exponent brackets the magnitude. -/
theorem ilog2_spec (q : ℚ) (hq : q ≠ 0) :
    pow2 (ilog2 q) ≤ |q| ∧ |q| < pow2 (ilog2 q + 1) := by
  have hN : q.num.natAbs ≠ 0 := by
    simpa using hq
  obtain ⟨a1, a2⟩ := nat_log2_spec q.num.natAbs hN
  obtain ⟨b1, b2⟩ := nat_log2_spec q.den q.den_nz
  have habs : |q| = (q.num.natAbs : ℚ) / (q.den : ℚ) := by
    conv_lhs => rw [← Rat.num_div_den q]
    rw [abs_div, Nat.cast_natAbs, Int.cast_abs]
    simp
  have hD : (0 : ℚ) < q.den := by exact_mod_cast q.den_pos
  have a1' : (2 : ℚ) ^ nat_log2 q.num.natAbs ≤ q.num.natAbs := by exact_mod_cast a1
  have a2' : (q.num.natAbs : ℚ) < 2 ^ (nat_log2 q.num.natAbs + 1) := by exact_mod_cast a2
  have b1' : (2 : ℚ) ^ nat_log2 q.den ≤ q.den := by exact_mod_cast b1
  have b2' : (q.den : ℚ) < 2 ^ (nat_log2 q.den + 1) := by exact_mod_cast b2
  have hpa : (0 : ℚ) < 2 ^ nat_log2 q.num.natAbs := by positivity
  have hpb : (0 : ℚ) < 2 ^ nat_log2 q.den := by positivity
  have two_ne : (2 : ℚ) ≠ 0 := by norm_num
  unfold ilog2
  simp only
  split_ifs with h
  · refine ⟨h, ?_⟩
    rw [pow2_eq_zpow, habs, div_lt_iff₀ hD, add_comm, zpow_add₀ two_ne, zpow_sub₀ two_ne,
      zpow_natCast, zpow_natCast, zpow_one]
    rw [pow_succ] at a2'
    calc (q.num.natAbs : ℚ) < 2 ^ nat_log2 q.num.natAbs * 2 := a2'
      _ = 2 * (2 ^ nat_log2 q.num.natAbs / 2 ^ nat_log2 q.den) * 2 ^ nat_log2 q.den := by
          field_simp
          ring
      _ ≤ 2 * (2 ^ nat_log2 q.num.natAbs / 2 ^ nat_log2 q.den) * q.den := by
          apply mul_le_mul_of_nonneg_left b1'
          positivity
  · push_neg at h
    refine ⟨?_, by simpa using h⟩
    rw [pow2_eq_zpow, habs, le_div_iff₀ hD, zpow_sub₀ two_ne, zpow_sub₀ two_ne,
      zpow_natCast, zpow_natCast, zpow_one]
    rw [pow_succ] at b2'
    calc 2 ^ nat_log2 q.num.natAbs / 2 ^ nat_log2 q.den / 2 * (q.den : ℚ)
        ≤ 2 ^ nat_log2 q.num.natAbs / 2 ^ nat_log2 q.den / 2 * (2 ^ nat_log2 q.den * 2) := by
          apply mul_le_mul_of_nonneg_left b2'.le
          positivity
      _ = 2 ^ nat_log2 q.num.natAbs := by
          field_simp
      _ ≤ q.num.natAbs := a1'

/-- The nearest-even rounding to an integer is within one half, and at a
distance of exactly one half the result is even. -/
theorem rne_spec (x : ℚ) :
    |(rne x : ℚ) - x| ≤ 1 / 2 ∧ (|(rne x : ℚ) - x| = 1 / 2 → (rne x) % 2 = 0) := by
  have h1 := Int.floor_le x
  have h2 := Int.lt_floor_add_one x
  unfold rne
  simp only
  split_ifs with ha hb hc
  · refine ⟨by rw [abs_le]; constructor <;> linarith, fun h => ?_⟩
    rw [abs_sub_comm, abs_of_nonneg (by linarith)] at h
    linarith
  · push_cast
    refine ⟨by rw [abs_le]; constructor <;> linarith, fun h => ?_⟩
    rw [abs_of_nonneg (by linarith)] at h
    linarith
  · refine ⟨by rw [abs_le]; constructor <;> linarith, fun _ => hc⟩
  · push_cast
    refine ⟨by rw [abs_le]; constructor <;> linarith, fun _ => by omega⟩

theorem pow2_mono {a b : ℤ} (h : a ≤ b) : pow2 a ≤ pow2 b := by
  rw [pow2_eq_zpow, pow2_eq_zpow]
  exact zpow_le_zpow_right₀ (by norm_num) h

theorem pow2_lt_iff {a b : ℤ} : pow2 a < pow2 b ↔ a < b := by
  rw [pow2_eq_zpow, pow2_eq_zpow]
  exact zpow_lt_zpow_iff_right₀ (by norm_num)

theorem pow2_add (a b : ℤ) : pow2 (a + b) = pow2 a * pow2 b := by
  rw [pow2_eq_zpow, pow2_eq_zpow, pow2_eq_zpow, zpow_add₀ (by norm_num)]

/-- A non-negative power of two is an integer. -/
theorem pow2_natCast (k : ℕ) : pow2 (k : ℤ) = ((2 ^ k : ℤ) : ℚ) := by
  rw [pow2_eq_zpow, zpow_natCast]
  push_cast
  rfl

/-- What `round64` computes: a finite result is a multiple of the spacing
`2 ^ (e - 52)` of the doubles around `q`, where `e` is the binary exponent of `q`
or `-1022` for subnormal magnitudes; it lies within half a spacing of `q`, at
exactly half a spacing it is the even multiple, and it is below `2 ^ 1024`. -/
theorem round64_nearest (q r : ℚ) (hq : q ≠ 0) (hr : round64 q = Double.fin r) :
    ∃ n : ℤ, r = (n : ℚ) * pow2 (max (ilog2 q) (-1022) - 52) ∧
      |r - q| ≤ pow2 (max (ilog2 q) (-1022) - 52) / 2 ∧
      (|r - q| = pow2 (max (ilog2 q) (-1022) - 52) / 2 → n % 2 = 0) ∧
      |r| < pow2 1024 := by
  have hu := pow2_pos (max (ilog2 q) (-1022) - 52)
  unfold round64 at hr
  simp only [if_neg hq] at hr
  split_ifs at hr with hov
  have hr' : (rne (q / pow2 (max (ilog2 q) (-1022) - 52)) : ℚ)
      * pow2 (max (ilog2 q) (-1022) - 52) = r := Double.fin.inj hr
  obtain ⟨s1, s2⟩ := rne_spec (q / pow2 (max (ilog2 q) (-1022) - 52))
  have hdist : |r - q| = |(rne (q / pow2 (max (ilog2 q) (-1022) - 52)) : ℚ)
      - q / pow2 (max (ilog2 q) (-1022) - 52)| * pow2 (max (ilog2 q) (-1022) - 52) := by
    rw [← hr', ← abs_of_pos hu, ← abs_mul, abs_of_pos hu, sub_mul, div_mul_cancel₀ _ hu.ne']
  refine ⟨rne (q / pow2 (max (ilog2 q) (-1022) - 52)), hr'.symm, ?_, ?_, ?_⟩
  · rw [hdist]
    calc _ ≤ 1 / 2 * pow2 (max (ilog2 q) (-1022) - 52) := mul_le_mul_of_nonneg_right s1 hu.le
      _ = pow2 (max (ilog2 q) (-1022) - 52) / 2 := by ring
  · intro h
    apply s2
    rw [hdist] at h
    have : |(rne (q / pow2 (max (ilog2 q) (-1022) - 52)) : ℚ)
        - q / pow2 (max (ilog2 q) (-1022) - 52)| * pow2 (max (ilog2 q) (-1022) - 52)
        = 1 / 2 * pow2 (max (ilog2 q) (-1022) - 52) := by rw [h]; ring
    exact mul_right_cancel₀ hu.ne' this
  · rw [← hr']
    exact not_le.mp hov

/-- Values of `round64` checked against the IEEE 754 doubles they denote: the
doubles nearest to `1/10` and `1/3`, ties going to the even significand at
`2 ^ 53 + 1` and `2 ^ 53 + 3`, subnormal spacing `2 ^ (-1074)`, and overflow at
`2 ^ 1024`. -/
theorem round64_known_values :
    round64 (1 / 10) = Double.fin (3602879701896397 / 36028797018963968) ∧
    round64 (1 / 3) = Double.fin (6004799503160661 / 18014398509481984) ∧
    round64 9007199254740993 = Double.fin 9007199254740992 ∧
    round64 9007199254740995 = Double.fin 9007199254740996 ∧
    round64 (3 * pow2 (-1075)) = Double.fin (2 * pow2 (-1074)) ∧
    round64 (pow2 (-1075)) = Double.fin 0 ∧
    round64 (pow2 1024 - pow2 971) = Double.fin (pow2 1024 - pow2 971) ∧
    round64 (pow2 1024 - pow2 970) = Double.pinf ∧
    round64 (-(pow2 1024)) = Double.ninf := by
  decide!

theorem rne_le_of_le (y : ℚ) (m : ℤ) (h : y ≤ m) : rne y ≤ m := by
  have h1 := (abs_le.mp (rne_spec y).1).2
  have h2 : (rne y : ℚ) < ((m + 1 : ℤ) : ℚ) := by
    push_cast
    linarith
  have h3 : rne y < m + 1 := by exact_mod_cast h2
  omega

theorem le_rne_of_le (y : ℚ) (m : ℤ) (h : (m : ℚ) ≤ y) : m ≤ rne y := by
  have h1 := (abs_le.mp (rne_spec y).1).1
  have h2 : ((m - 1 : ℤ) : ℚ) < (rne y : ℚ) := by
    push_cast
    linarith
  have h3 : m - 1 < rne y := by exact_mod_cast h2
  omega

theorem ilog2_le_of_lt {q : ℚ} {e : ℤ} (hq : 0 < q) (h : q < pow2 (e + 1)) : ilog2 q ≤ e := by
  have h1 := (ilog2_spec q hq.ne').1
  rw [abs_of_pos hq] at h1
  have := pow2_lt_iff.mp (lt_of_le_of_lt h1 h)
  omega

theorem le_ilog2_of_le {q : ℚ} {e : ℤ} (hq : 0 < q) (h : pow2 e ≤ q) : e ≤ ilog2 q := by
  have h1 := (ilog2_spec q hq.ne').2
  rw [abs_of_pos hq] at h1
  have := pow2_lt_iff.mp (lt_of_le_of_lt h h1)
  omega

theorem is_normal_double_bounds {x : ℚ} {e n : ℤ} (hx : is_normal_double x e n) :
    pow2 e ≤ x ∧ x < pow2 (e + 1) := by
  obtain ⟨_, _, h1, h2, rfl⟩ := hx
  have hu := pow2_pos (e - 52)
  have e1 : pow2 e = pow2 52 * pow2 (e - 52) := by rw [← pow2_add]; congr 1; ring
  have e2 : pow2 (e + 1) = pow2 53 * pow2 (e - 52) := by rw [← pow2_add]; congr 1; ring
  have c1 : pow2 52 = ((2 ^ 52 : ℤ) : ℚ) := pow2_natCast 52
  have c2 : pow2 53 = ((2 ^ 53 : ℤ) : ℚ) := pow2_natCast 53
  rw [e1, e2, c1, c2]
  constructor
  · exact mul_le_mul_of_nonneg_right (by exact_mod_cast h1) hu.le
  · exact mul_lt_mul_of_pos_right (by exact_mod_cast h2) hu

/-- Rounding does not cross a normal double from below: the rounding of a value
at most `x` is at most `x`. -/
theorem round64_le_of_le {q x : ℚ} {e n : ℤ} (hx : is_normal_double x e n) (hqx : q ≤ x) :
    round64 q = Double.ninf ∨ ∃ r, round64 q = Double.fin r ∧ r ≤ x := by
  obtain ⟨hxlo, hxhi⟩ := is_normal_double_bounds hx
  have hxpos : 0 < x := lt_of_lt_of_le (pow2_pos e) hxlo
  obtain ⟨he1, he2, hn1, hn2, hxe⟩ := hx
  unfold round64
  simp only
  split_ifs with h0 hov hpos
  · exact Or.inr ⟨0, rfl, hxpos.le⟩
  · -- overflow with positive `q` is impossible below `x`
    exfalso
    set eq := max (ilog2 q) (-1022) with heq
    have hle : eq ≤ e := max_le (ilog2_le_of_lt hpos (lt_of_le_of_lt hqx hxhi)) he1
    have hu := pow2_pos (eq - 52)
    obtain ⟨k, hk⟩ := Int.eq_ofNat_of_zero_le (show 0 ≤ e - eq by omega)
    have hxu : x = ((n * 2 ^ k : ℤ) : ℚ) * pow2 (eq - 52) := by
      rw [hxe, show e - 52 = (k : ℤ) + (eq - 52) by omega, pow2_add, pow2_natCast]
      push_cast
      ring
    have hr : rne (q / pow2 (eq - 52)) ≤ n * 2 ^ k := by
      apply rne_le_of_le
      rw [div_le_iff₀ hu, ← hxu]
      exact hqx
    have hr0 : 0 ≤ rne (q / pow2 (eq - 52)) :=
      le_rne_of_le _ 0 (by simpa using (div_pos hpos hu).le)
    have hrx : (rne (q / pow2 (eq - 52)) : ℚ) * pow2 (eq - 52) ≤ x := by
      rw [hxu]
      exact mul_le_mul_of_nonneg_right (by exact_mod_cast hr) hu.le
    rw [abs_of_nonneg (mul_nonneg (by exact_mod_cast hr0) hu.le)] at hov
    have : x < pow2 1024 := lt_of_lt_of_le hxhi (pow2_mono (by omega))
    linarith
  · exact Or.inl rfl
  · refine Or.inr ⟨_, rfl, ?_⟩
    set eq := max (ilog2 q) (-1022) with heq
    have hu := pow2_pos (eq - 52)
    rcases lt_or_gt_of_ne h0 with hneg | hpos
    · have hr : rne (q / pow2 (eq - 52)) ≤ 0 :=
        rne_le_of_le _ 0 (by simpa using (div_neg_of_neg_of_pos hneg hu).le)
      have : (rne (q / pow2 (eq - 52)) : ℚ) * pow2 (eq - 52) ≤ 0 :=
        mul_nonpos_of_nonpos_of_nonneg (by exact_mod_cast hr) hu.le
      linarith
    · have hle : eq ≤ e := max_le (ilog2_le_of_lt hpos (lt_of_le_of_lt hqx hxhi)) he1
      obtain ⟨k, hk⟩ := Int.eq_ofNat_of_zero_le (show 0 ≤ e - eq by omega)
      have hxu : x = ((n * 2 ^ k : ℤ) : ℚ) * pow2 (eq - 52) := by
        rw [hxe, show e - 52 = (k : ℤ) + (eq - 52) by omega, pow2_add, pow2_natCast]
        push_cast
        ring
      have hr : rne (q / pow2 (eq - 52)) ≤ n * 2 ^ k := by
        apply rne_le_of_le
        rw [div_le_iff₀ hu, ← hxu]
        exact hqx
      rw [hxu]
      exact mul_le_mul_of_nonneg_right (by exact_mod_cast hr) hu.le

/-- Rounding does not cross a normal double from above: the rounding of a value
at least `x` is at least `x`. -/
theorem round64_ge_of_le {q x : ℚ} {e n : ℤ} (hx : is_normal_double x e n) (hxq : x ≤ q) :
    round64 q = Double.pinf ∨ ∃ r, round64 q = Double.fin r ∧ x ≤ r := by
  obtain ⟨hxlo, hxhi⟩ := is_normal_double_bounds hx
  have hxpos : 0 < x := lt_of_lt_of_le (pow2_pos e) hxlo
  have hpos : 0 < q := lt_of_lt_of_le hxpos hxq
  obtain ⟨he1, he2, hn1, hn2, hxe⟩ := hx
  have hle : e ≤ ilog2 q := le_ilog2_of_le hpos (hxlo.trans hxq)
  have hmax : max (ilog2 q) (-1022) = ilog2 q := max_eq_left (by omega)
  unfold round64
  simp only
  rw [hmax, if_neg hpos.ne', if_pos hpos]
  split_ifs with hov
  · exact Or.inl rfl
  · refine Or.inr ⟨_, rfl, ?_⟩
    have hu := pow2_pos (ilog2 q - 52)
    rcases eq_or_lt_of_le hle with heq | hlt
    · have hr : n ≤ rne (q / pow2 (ilog2 q - 52)) := by
        apply le_rne_of_le
        rw [le_div_iff₀ hu, ← heq, ← hxe]
        exact hxq
      rw [hxe, heq]
      exact mul_le_mul_of_nonneg_right (by exact_mod_cast hr) hu.le
    · have hq1 := (ilog2_spec q hpos.ne').1
      rw [abs_of_pos hpos] at hq1
      have hsplit : pow2 (ilog2 q) = ((2 ^ 52 : ℤ) : ℚ) * pow2 (ilog2 q - 52) := by
        rw [← pow2_natCast 52, ← pow2_add]
        congr 1
        ring
      have hr : (2 ^ 52 : ℤ) ≤ rne (q / pow2 (ilog2 q - 52)) := by
        apply le_rne_of_le
        rw [le_div_iff₀ hu, ← hsplit]
        exact hq1
      have h1 : pow2 (ilog2 q) ≤ (rne (q / pow2 (ilog2 q - 52)) : ℚ) * pow2 (ilog2 q - 52) := by
        rw [hsplit]
        exact mul_le_mul_of_nonneg_right (by exact_mod_cast hr) hu.le
      have h2 : pow2 (e + 1) ≤ pow2 (ilog2 q) := pow2_mono (by omega)
      linarith

/-! ## The ring buffer -/

namespace CairoTSPlot

variable {α : Type} {R : FloatModel}

/-- Masking with `NUM_POINTS - 1` is reduction modulo `NUM_POINTS`. -/
theorem circbuf_idx_val (i : ℕ) : (_circbuf_idx i).val = i % NUM_POINTS := by
  have h := Nat.and_pow_two_sub_one_eq_mod i 9
  simpa [_circbuf_idx, NUM_POINTS] using h

/-- Two cursors address the same slot exactly when they agree modulo
`NUM_POINTS`. -/
theorem circbuf_idx_eq_iff (i k : ℕ) :
    _circbuf_idx i = _circbuf_idx k ↔ i % NUM_POINTS = k % NUM_POINTS := by
  rw [Fin.ext_iff, circbuf_idx_val, circbuf_idx_val]

/-- Advancing the cursor modulo `2 ^ 32` advances the slot modulo `NUM_POINTS`. -/
theorem circbuf_idx_advance (h : ℕ) :
    (_circbuf_idx ((h + 1) % UINT_MODULUS)).val = ((_circbuf_idx h).val + 1) % NUM_POINTS := by
  rw [circbuf_idx_val, circbuf_idx_val]
  simp only [UINT_MODULUS, NUM_POINTS]
  omega

theorem sample_data_head (w : CairoTSPlot α) (arg : α) (t : ℤ) :
    (w.sample R arg t)._data_head = (w._data_head + 1) % UINT_MODULUS := rfl

theorem sample_sample_fn (w : CairoTSPlot α) (arg : α) (t : ℤ) :
    (w.sample R arg t)._sample_fn = w._sample_fn := rfl

/-- Slots other than the reserved one are not touched by `sample`. -/
theorem sample_data_of_ne (w : CairoTSPlot α) (arg : α) (t : ℤ) (j : Fin NUM_POINTS)
    (hj : j ≠ _circbuf_idx w._data_head) : (w.sample R arg t)._data j = w._data j := by
  simp [sample, Function.update_noteq hj]

/-- The value stored in the reserved slot is the one returned by the sampling
function, called with the slot's previous alert flag. -/
theorem sample_data_value (w : CairoTSPlot α) (arg : α) (t : ℤ) :
    ((w.sample R arg t)._data (_circbuf_idx w._data_head)).value
      = (w._sample_fn arg (w._data (_circbuf_idx w._data_head)).is_alerted).1 := by
  simp [sample]

theorem sample_data_is_alerted (w : CairoTSPlot α) (arg : α) (t : ℤ) :
    ((w.sample R arg t)._data (_circbuf_idx w._data_head)).is_alerted
      = (w._sample_fn arg (w._data (_circbuf_idx w._data_head)).is_alerted).2 := by
  simp [sample]

theorem sample_seq_sample_fn (w : CairoTSPlot α) (args : ℕ → α) (tps : ℕ → ℤ) (n : ℕ) :
    (sample_seq R w args tps n)._sample_fn = w._sample_fn := by
  induction n with
  | zero => rfl
  | succ n ih => rw [sample_seq, sample_sample_fn, ih]

/-- The slot reserved by call number `n` of a sequence. -/
theorem sample_seq_idx (w : CairoTSPlot α) (args : ℕ → α) (tps : ℕ → ℤ) (n : ℕ) :
    (_circbuf_idx (sample_seq R w args tps n)._data_head).val
      = (w._data_head + n) % NUM_POINTS := by
  induction n with
  | zero => simp [sample_seq, circbuf_idx_val]
  | succ n ih =>
    rw [sample_seq, sample_data_head, circbuf_idx_advance, ih]
    simp only [NUM_POINTS]
    omega

/-- A slot that none of the calls `a, …, a + m - 1` reserves is the same after
them as before. -/
theorem sample_seq_data_untouched (w : CairoTSPlot α) (args : ℕ → α) (tps : ℕ → ℤ)
    (j : Fin NUM_POINTS) (a m : ℕ)
    (hj : ∀ k, a ≤ k → k < a + m → (w._data_head + k) % NUM_POINTS ≠ j.val) :
    (sample_seq R w args tps (a + m))._data j = (sample_seq R w args tps a)._data j := by
  induction m with
  | zero => rfl
  | succ m ih =>
    have hne : j ≠ _circbuf_idx (sample_seq R w args tps (a + m))._data_head := by
      intro h
      apply hj (a + m) (by omega) (by omega)
      rw [← sample_seq_idx w args tps (a + m), ← h]
    rw [← Nat.add_assoc, sample_seq, sample_data_of_ne _ _ _ _ hne]
    exact ih (fun k h1 h2 => hj k h1 (by omega))

/-- Contents of the buffer of a fresh widget after `n` calls: a sample is in
its slot as long as fewer than `NUM_POINTS` calls followed it, and the slots not
yet reached are as constructed. -/
theorem sample_seq_create_data (text : String) (fn : sample_fn_t α) (m M step h0 : Double)
    (args : ℕ → α) (tps : ℕ → ℤ) (v : ℕ → Double) (n : ℕ)
    (hv : ∀ k, k < n → ∀ b, (fn (args k) b).1 = v k) :
    (∀ (j : Fin NUM_POINTS) (k : ℕ), k % NUM_POINTS = j.val → k < n → n ≤ k + NUM_POINTS →
        ((sample_seq R (create text fn m M step h0) args tps n)._data j).value = v k) ∧
    (∀ j : Fin NUM_POINTS, n ≤ j.val →
        (sample_seq R (create text fn m M step h0) args tps n)._data j = value_struct.init) := by
  induction n with
  | zero =>
    refine ⟨fun j k _ hk _ => absurd hk (Nat.not_lt_zero k), fun j _ => rfl⟩
  | succ n ih =>
    obtain ⟨ih1, ih2⟩ := ih (fun k hk b => hv k (Nat.lt_succ_of_lt hk) b)
    have hidx := sample_seq_idx (R := R) (create text fn m M step h0) args tps n
    have hhead : (create text fn m M step h0)._data_head = 0 := rfl
    rw [hhead, Nat.zero_add] at hidx
    constructor
    · intro j k hkj hk hn
      by_cases hkn : k = n
      · subst hkn
        have hj : j = _circbuf_idx (sample_seq R (create text fn m M step h0) args tps k)._data_head :=
          Fin.ext (by rw [hidx, hkj])
        rw [sample_seq, hj, sample_data_value, sample_seq_sample_fn]
        exact hv k (Nat.lt_succ_self k) _
      · have hj : j ≠ _circbuf_idx (sample_seq R (create text fn m M step h0) args tps n)._data_head := by
          intro h
          have h' := congrArg Fin.val h
          rw [hidx, ← hkj] at h'
          simp only [NUM_POINTS] at h' hn
          omega
        rw [sample_seq, sample_data_of_ne _ _ _ _ hj]
        exact ih1 j k hkj (by omega) (by omega)
    · intro j hj
      have hne : j ≠ _circbuf_idx (sample_seq R (create text fn m M step h0) args tps n)._data_head := by
        intro h
        have h' := congrArg Fin.val h
        have hlt := j.isLt
        rw [hidx] at h'
        simp only [NUM_POINTS] at h' hlt
        omega
      rw [sample_seq, sample_data_of_ne _ _ _ _ hne]
      exact ih2 j (by omega)

end CairoTSPlot

/-! ## Time stamps -/

/-- With exact arithmetic the test `_diff.count() >= 5.0f` holds exactly for
durations of at least five seconds. -/
theorem five_second_test_exact (d : ℤ) :
    Double.ge (duration_count FloatModel.exact d) (Double.fin 5) = true
      ↔ 5 * TICKS_PER_SECOND ≤ d := by
  have hpos : (0 : ℚ) < 1000000000 := by norm_num
  simp only [duration_count, FloatModel.exact, Double.div, TICKS_PER_SECOND, Double.ge,
    decide_eq_true_iff]
  rw [if_neg (by norm_num)]
  simp only [Double.ge, decide_eq_true_iff]
  rw [le_div_iff₀ (by norm_num)]
  exact_mod_cast Iff.rfl

/-- With IEEE arithmetic the test `_diff.count() >= 5.0f` also holds exactly
for durations of at least five seconds: the two roundings of the conversion
(of the tick count, and of the quotient) cross neither the doubles `4999999999`
and `5000000000` nor `5` and its predecessor `5 - 2 ^ (-50)`. -/
theorem five_second_test_binary64 (d : ℤ) :
    Double.ge (duration_count FloatModel.binary64 d) (Double.fin 5) = true
      ↔ 5 * TICKS_PER_SECOND ≤ d := by
  have hden : round64 ((TICKS_PER_SECOND : ℤ) : ℚ) = Double.fin 1000000000 := by decide!
  have hden0 : (1000000000 : ℚ) ≠ 0 := by norm_num
  have n1 : is_normal_double 4999999999 32 (4999999999 * 2 ^ 20) :=
    ⟨by norm_num, by norm_num, by norm_num, by norm_num, by decide!⟩
  have n2 : is_normal_double 5000000000 32 (5000000000 * 2 ^ 20) :=
    ⟨by norm_num, by norm_num, by norm_num, by norm_num, by decide!⟩
  have n3 : is_normal_double (5 - pow2 (-50)) 2 (5 * 2 ^ 50 - 1) :=
    ⟨by norm_num, by norm_num, by norm_num, by norm_num, by decide!⟩
  have n4 : is_normal_double 5 2 (5 * 2 ^ 50) :=
    ⟨by norm_num, by norm_num, by norm_num, by norm_num, by decide!⟩
  have hp : pow2 (-50) ≤ 1 / 1000000000 := by decide!
  have hp0 := pow2_pos (-50)
  simp only [duration_count, FloatModel.binary64]
  rw [hden]
  constructor
  · intro h
    by_contra hlt
    have hd : (d : ℚ) ≤ 4999999999 := by
      have : d ≤ 4999999999 := by
        simp only [TICKS_PER_SECOND] at hlt
        omega
      exact_mod_cast this
    rcases round64_le_of_le n1 hd with h1 | ⟨r, h1, hr⟩
    · rw [h1] at h
      simp [Double.div, Double.ge] at h
    · rw [h1] at h
      simp only [Double.div, if_neg hden0] at h
      have hq : r / 1000000000 ≤ 5 - pow2 (-50) := by
        rw [div_le_iff₀ (by norm_num)]
        linarith
      rcases round64_le_of_le n3 hq with h2 | ⟨z, h2, hz⟩
      · rw [h2] at h
        simp [Double.ge] at h
      · rw [h2] at h
        simp only [Double.ge, decide_eq_true_iff] at h
        linarith
  · intro hge
    have hd : (5000000000 : ℚ) ≤ (d : ℚ) := by
      have : 5000000000 ≤ d := by
        simp only [TICKS_PER_SECOND] at hge
        omega
      exact_mod_cast this
    rcases round64_ge_of_le n2 hd with h1 | ⟨r, h1, hr⟩
    · rw [h1]
      simp [Double.div, Double.ge]
    · rw [h1]
      simp only [Double.div, if_neg hden0]
      have hq : 5 ≤ r / 1000000000 := by
        rw [le_div_iff₀ (by norm_num)]
        linarith
      rcases round64_ge_of_le n4 hq with h2 | ⟨z, h2, hz⟩
      · rw [h2]
        simp [Double.ge]
      · rw [h2]
        simpa [Double.ge] using hz

/-- In both models of double arithmetic the five-second test of `sample` is
exact. -/
theorem five_second_test {R : FloatModel}
    (hR : R = FloatModel.exact ∨ R = FloatModel.binary64) (d : ℤ) :
    Double.ge (duration_count R d) (Double.fin 5) = true ↔ 5 * TICKS_PER_SECOND ≤ d := by
  rcases hR with rfl | rfl
  · exact five_second_test_exact d
  · exact five_second_test_binary64 d

namespace CairoTSPlot

variable {α : Type} {R : FloatModel}

theorem sample_data_has_timepoint (w : CairoTSPlot α) (arg : α) (t : ℤ) :
    ((w.sample R arg t)._data (_circbuf_idx w._data_head)).has_timepoint
      = Double.ge (duration_count R (t - w._lasttimepoint)) (Double.fin 5) := by
  simp [sample]

theorem sample_data_timepoint (w : CairoTSPlot α) (arg : α) (t : ℤ) :
    ((w.sample R arg t)._data (_circbuf_idx w._data_head)).timepoint
      = if Double.ge (duration_count R (t - w._lasttimepoint)) (Double.fin 5) = true then t
        else (w._data (_circbuf_idx w._data_head)).timepoint := by
  simp [sample]

theorem sample_lasttimepoint (w : CairoTSPlot α) (arg : α) (t : ℤ) :
    (w.sample R arg t)._lasttimepoint
      = if Double.ge (duration_count R (t - w._lasttimepoint)) (Double.fin 5) = true then t
        else w._lasttimepoint := by
  simp [sample]

/-- The flag left in the slot of call `k` tells whether at least five seconds
have passed since the "last stamped" marker. -/
theorem sample_seq_slot_has_timepoint (hR : R = FloatModel.exact ∨ R = FloatModel.binary64)
    (w : CairoTSPlot α) (args : ℕ → α) (tps : ℕ → ℤ) (k : ℕ) :
    (sample_seq_slot R w args tps k).has_timepoint = true
      ↔ 5 * TICKS_PER_SECOND ≤ tps k - (sample_seq R w args tps k)._lasttimepoint := by
  rw [sample_seq_slot, sample_seq, sample_data_has_timepoint, five_second_test hR]

/-- With non-decreasing time points, no stamped call lies after the
"last stamped" marker. -/
theorem stamped_le_lasttimepoint (hR : R = FloatModel.exact ∨ R = FloatModel.binary64)
    (w : CairoTSPlot α) (args : ℕ → α) (tps : ℕ → ℤ)
    (hmono : ∀ k, tps k ≤ tps (k + 1)) (n i : ℕ) (hi : i < n)
    (hs : (sample_seq_slot R w args tps i).has_timepoint = true) :
    tps i ≤ (sample_seq R w args tps n)._lasttimepoint := by
  have hm : Monotone tps := monotone_nat_of_le_succ hmono
  induction n with
  | zero => exact absurd hi (Nat.not_lt_zero i)
  | succ n ih =>
    rw [sample_seq, sample_lasttimepoint]
    split
    · exact hm (Nat.le_of_lt_succ hi)
    · rename_i hnot
      rcases Nat.lt_succ_iff_lt_or_eq.mp hi with hlt | heq
      · exact ih hlt
      · subst heq
        rw [five_second_test hR] at hnot
        exact absurd ((sample_seq_slot_has_timepoint hR w args tps i).mp hs) hnot

end CairoTSPlot

/-! ## Theorems on the ring buffer -/

namespace CairoTSPlot

variable {α : Type}

/-- C9: for every head cursor the masked index `h & (NUM_POINTS - 1)` is
`h mod NUM_POINTS`.  A call of `sample` writes the slot at the masked head, which
receives the value and alert flag returned by the sampling function and the
time-stamp test, and writes no other slot; it leaves the cursor advanced by one
modulo `2 ^ 32`.  The next call writes the cyclic successor `(slot + 1) mod 512`,
which receives the next sample while the previous slot keeps the previous one.
This includes the overflow of the cursor from `2 ^ 32 - 1` to `0`, where the
sample written to slot 511 is followed by a sample written to slot 0. -/
theorem sample_slot_cyclic (R : FloatModel) (w : CairoTSPlot α) (arg arg' : α) (t t' : ℤ) :
    w._data_head &&& (NUM_POINTS - 1) = w._data_head % NUM_POINTS ∧
    (_circbuf_idx w._data_head).val = w._data_head % NUM_POINTS ∧
    (w.sample R arg t)._data (_circbuf_idx w._data_head)
      = { value := (w._sample_fn arg (w._data (_circbuf_idx w._data_head)).is_alerted).1
          is_alerted := (w._sample_fn arg (w._data (_circbuf_idx w._data_head)).is_alerted).2
          has_timepoint := Double.ge (duration_count R (t - w._lasttimepoint)) (Double.fin 5)
          timepoint :=
            if Double.ge (duration_count R (t - w._lasttimepoint)) (Double.fin 5) = true then t
            else (w._data (_circbuf_idx w._data_head)).timepoint } ∧
    (∀ j, j ≠ _circbuf_idx w._data_head → (w.sample R arg t)._data j = w._data j) ∧
    (w.sample R arg t)._data_head = (w._data_head + 1) % UINT_MODULUS ∧
    (_circbuf_idx (w.sample R arg t)._data_head).val
      = ((_circbuf_idx w._data_head).val + 1) % NUM_POINTS ∧
    _circbuf_idx (w.sample R arg t)._data_head ≠ _circbuf_idx w._data_head ∧
    (((w.sample R arg t).sample R arg' t')._data
        (_circbuf_idx (w.sample R arg t)._data_head)).value
      = (w._sample_fn arg'
          (w._data (_circbuf_idx (w.sample R arg t)._data_head)).is_alerted).1 ∧
    (((w.sample R arg t).sample R arg' t')._data (_circbuf_idx w._data_head)).value
      = (w._sample_fn arg (w._data (_circbuf_idx w._data_head)).is_alerted).1 ∧
    (∀ j, j ≠ _circbuf_idx w._data_head → j ≠ _circbuf_idx (w.sample R arg t)._data_head →
      ((w.sample R arg t).sample R arg' t')._data j = w._data j) ∧
    (w._data_head = UINT_MODULUS - 1 →
      (w.sample R arg t)._data_head = 0 ∧
      (_circbuf_idx w._data_head).val = 511 ∧
      (_circbuf_idx (w.sample R arg t)._data_head).val = 0 ∧
      (((w.sample R arg t).sample R arg' t')._data (_circbuf_idx 511)).value
        = (w._sample_fn arg (w._data (_circbuf_idx 511)).is_alerted).1 ∧
      (((w.sample R arg t).sample R arg' t')._data (_circbuf_idx 0)).value
        = (w._sample_fn arg' (w._data (_circbuf_idx 0)).is_alerted).1) := by
  have hadv : (_circbuf_idx (w.sample R arg t)._data_head).val
      = ((_circbuf_idx w._data_head).val + 1) % NUM_POINTS := by
    rw [sample_data_head, circbuf_idx_advance]
  have hne : _circbuf_idx (w.sample R arg t)._data_head ≠ _circbuf_idx w._data_head := by
    intro h
    have h' := congrArg Fin.val h
    have hlt := (_circbuf_idx w._data_head).isLt
    rw [hadv] at h'
    simp only [NUM_POINTS] at h' hlt
    omega
  have hsecond : (((w.sample R arg t).sample R arg' t')._data
      (_circbuf_idx (w.sample R arg t)._data_head)).value
      = (w._sample_fn arg'
          (w._data (_circbuf_idx (w.sample R arg t)._data_head)).is_alerted).1 := by
    rw [sample_data_value, sample_sample_fn, sample_data_of_ne w arg t _ hne]
  have hfirst : (((w.sample R arg t).sample R arg' t')._data (_circbuf_idx w._data_head)).value
      = (w._sample_fn arg (w._data (_circbuf_idx w._data_head)).is_alerted).1 := by
    rw [sample_data_of_ne (w.sample R arg t) arg' t' _ hne.symm, sample_data_value]
  refine ⟨circbuf_idx_val w._data_head, circbuf_idx_val w._data_head, ?_,
    fun j hj => sample_data_of_ne w arg t j hj, rfl, hadv, hne, hsecond, hfirst, ?_, ?_⟩
  · simp [sample]
  · intro j hj1 hj2
    rw [sample_data_of_ne (w.sample R arg t) arg' t' j hj2, sample_data_of_ne w arg t j hj1]
  · intro h
    have h511 : _circbuf_idx w._data_head = _circbuf_idx 511 := by
      rw [h]
      decide
    have h0 : _circbuf_idx (w.sample R arg t)._data_head = _circbuf_idx 0 := by
      rw [sample_data_head, h]
      decide
    refine ⟨?_, ?_, ?_, ?_, ?_⟩
    · rw [sample_data_head, h]
      decide
    · rw [h511]
      decide
    · rw [h0]
      decide
    · rw [← h511]
      exact hfirst
    · rw [← h0]
      exact hsecond

/-- The cyclic succession of slots at the overflow of the cursor: on the
example widget with its cursor at `2 ^ 32 - 1`, two calls returning 7 and 9 leave
7 in slot 511 and 9 in slot 0. -/
theorem sample_slot_cyclic_witness :
    ({ example_plot with _data_head := 4294967295 } : CairoTSPlot ℚ)._data_head
      = UINT_MODULUS - 1 ∧
    (({ example_plot with _data_head := 4294967295 } : CairoTSPlot ℚ).sample
      FloatModel.binary64 7 0)._data_head = 0 ∧
    (((({ example_plot with _data_head := 4294967295 } : CairoTSPlot ℚ).sample
      FloatModel.binary64 7 0).sample FloatModel.binary64 9 0)._data (_circbuf_idx 511)).value
      = Double.fin 7 ∧
    (((({ example_plot with _data_head := 4294967295 } : CairoTSPlot ℚ).sample
      FloatModel.binary64 7 0).sample FloatModel.binary64 9 0)._data (_circbuf_idx 0)).value
      = Double.fin 9 :=
  ⟨by decide,
   ((sample_slot_cyclic FloatModel.binary64 { example_plot with _data_head := 4294967295 }
      7 9 0 0).2.2.2.2.2.2.2.2.2.2 (by decide)).1,
   ((sample_slot_cyclic FloatModel.binary64 { example_plot with _data_head := 4294967295 }
      7 9 0 0).2.2.2.2.2.2.2.2.2.2 (by decide)).2.2.2.1,
   ((sample_slot_cyclic FloatModel.binary64 { example_plot with _data_head := 4294967295 }
      7 9 0 0).2.2.2.2.2.2.2.2.2.2 (by decide)).2.2.2.2⟩

/-- C8 (the code departs from its documentation): on a fresh widget whose
sampling function returns `1`, after one call of `sample` the slot addressed by
the head cursor, `_data[_data_head & (NUM_POINTS - 1)]`, is slot 1 and still
holds `HUGE_VAL`; the value just returned is in slot 0, one behind the cursor. -/
theorem sample_head_slot_is_not_new_value :
    ((create "plot" pass_through_fn (Double.fin 0) (Double.fin 100) (Double.fin 0)
        (Double.fin 100)).sample FloatModel.binary64 1 0)._data_head = 1 ∧
    (((create "plot" pass_through_fn (Double.fin 0) (Double.fin 100) (Double.fin 0)
        (Double.fin 100)).sample FloatModel.binary64 1 0)._data (_circbuf_idx 1)).value
      = HUGE_VAL ∧
    (((create "plot" pass_through_fn (Double.fin 0) (Double.fin 100) (Double.fin 0)
        (Double.fin 100)).sample FloatModel.binary64 1 0)._data (_circbuf_idx 0)).value
      = Double.fin 1 ∧
    HUGE_VAL ≠ Double.fin 1 := by
  refine ⟨rfl, ?_, ?_, by decide⟩
  · rw [sample_data_of_ne _ _ _ _ (by decide)]
    rfl
  · exact sample_data_value _ _ _

/-- C1: start from a freshly constructed widget and call `sample` `N` times, the
sampling function returning `v k` at call `k`.  For every slot `j`: if some
`k < N` has `k mod 512 = j`, the slot holds `v k` for the largest such `k`;
otherwise the slot is still as constructed (`HUGE_VAL`, not alerted, no time
point).  Hence for `N ≤ 512` sample `k` is in slot `k`, and for `N > 512` the
slots hold exactly the samples `N - 512, …, N - 1`, each in slot `k mod 512`.
The statement holds for every `N`, in particular for `N < 2 ^ 32`. -/
theorem sample_seq_retains_most_recent (R : FloatModel) (text : String) (fn : sample_fn_t α)
    (m M step h0 : Double) (args : ℕ → α) (tps : ℕ → ℤ) (v : ℕ → Double) (N : ℕ)
    (hv : ∀ k, k < N → ∀ b, (fn (args k) b).1 = v k) :
    (∀ j : Fin NUM_POINTS,
      (∀ k, k < N → k % NUM_POINTS = j.val →
        (∀ k', k' < N → k' % NUM_POINTS = j.val → k' ≤ k) →
        ((sample_seq R (create text fn m M step h0) args tps N)._data j).value = v k) ∧
      ((∀ k, k < N → k % NUM_POINTS ≠ j.val) →
        ((sample_seq R (create text fn m M step h0) args tps N)._data j).value = HUGE_VAL ∧
        ((sample_seq R (create text fn m M step h0) args tps N)._data j).is_alerted = false ∧
        ((sample_seq R (create text fn m M step h0) args tps N)._data j).has_timepoint
          = false)) ∧
    (N ≤ NUM_POINTS → ∀ j : Fin NUM_POINTS, j.val < N →
      ((sample_seq R (create text fn m M step h0) args tps N)._data j).value = v j.val) ∧
    (NUM_POINTS < N → ∀ k, N - NUM_POINTS ≤ k → k < N →
      ((sample_seq R (create text fn m M step h0) args tps N)._data (_circbuf_idx k)).value
        = v k) := by
  obtain ⟨h1, h2⟩ := sample_seq_create_data (R := R) text fn m M step h0 args tps v N hv
  refine ⟨fun j => ⟨?_, ?_⟩, ?_, ?_⟩
  · intro k hk hkj hmax
    apply h1 j k hkj hk
    by_contra hlt
    have hle := hmax (k + NUM_POINTS) (by omega) (by rw [Nat.add_mod_right]; exact hkj)
    simp only [NUM_POINTS] at hle
    omega
  · intro hnone
    have hj : N ≤ j.val := by
      by_contra hlt
      exact hnone j.val (by omega) (Nat.mod_eq_of_lt j.isLt)
    rw [h2 j hj]
    exact ⟨rfl, rfl, rfl⟩
  · intro hN j hj
    exact h1 j j.val (Nat.mod_eq_of_lt j.isLt) hj (by omega)
  · intro _ k hk1 hk2
    exact h1 (_circbuf_idx k) k (circbuf_idx_val k).symm hk2 (by omega)

/-- Three calls on a fresh widget whose sampling function returns its
argument: sample 2 is in slot 2. -/
theorem sample_seq_retains_most_recent_witness :
    (∀ k, k < 3 → ∀ b, (pass_through_fn ((fun k => (k : ℚ)) k) b).1
        = (fun k => Double.fin (k : ℚ)) k) ∧
    3 ≤ NUM_POINTS ∧
    ((sample_seq FloatModel.binary64 (create "plot" pass_through_fn (Double.fin 0)
        (Double.fin 100) (Double.fin 0) (Double.fin 0)) (fun k => (k : ℚ)) (fun _ => 0)
        3)._data ⟨2, by decide⟩).value
      = Double.fin ((2 : ℕ) : ℚ) :=
  ⟨fun _ _ _ => rfl, by decide,
   (sample_seq_retains_most_recent FloatModel.binary64 "plot" pass_through_fn (Double.fin 0)
      (Double.fin 100) (Double.fin 0) (Double.fin 0) (fun k => (k : ℚ)) (fun _ => 0)
      (fun k => Double.fin (k : ℚ)) 3 (fun _ _ _ => rfl)).2.1 (by decide) ⟨2, by decide⟩
      (by decide)⟩

/-- C4: in a sequence of `sample` calls with non-decreasing time points, a call
is marked `has_timepoint` exactly when its time point minus the "last stamped"
marker is at least 5 seconds (`5 * TICKS_PER_SECOND` ticks); a marked call
records its time point in the slot and makes it the new marker, an unmarked call
leaves the marker alone.  Hence any two marked calls are at least 5 seconds
apart, and of two calls less than 5 seconds apart at most one is marked.  This
holds with exact and with IEEE double arithmetic. -/
theorem timepoint_marking (R : FloatModel)
    (hR : R = FloatModel.exact ∨ R = FloatModel.binary64) (w : CairoTSPlot α) (args : ℕ → α)
    (tps : ℕ → ℤ) (hmono : ∀ k, tps k ≤ tps (k + 1)) :
    (∀ k, (sample_seq_slot R w args tps k).has_timepoint = true
        ↔ 5 * TICKS_PER_SECOND ≤ tps k - (sample_seq R w args tps k)._lasttimepoint) ∧
    (∀ k, (sample_seq_slot R w args tps k).has_timepoint = true →
        (sample_seq_slot R w args tps k).timepoint = tps k ∧
        (sample_seq R w args tps (k + 1))._lasttimepoint = tps k) ∧
    (∀ k, (sample_seq_slot R w args tps k).has_timepoint = false →
        (sample_seq R w args tps (k + 1))._lasttimepoint
          = (sample_seq R w args tps k)._lasttimepoint) ∧
    (∀ i j, i < j → (sample_seq_slot R w args tps i).has_timepoint = true →
        (sample_seq_slot R w args tps j).has_timepoint = true →
        5 * TICKS_PER_SECOND ≤ tps j - tps i) ∧
    (∀ i j, i < j → tps j - tps i < 5 * TICKS_PER_SECOND →
        ¬ ((sample_seq_slot R w args tps i).has_timepoint = true ∧
           (sample_seq_slot R w args tps j).has_timepoint = true)) := by
  have hapart : ∀ i j, i < j → (sample_seq_slot R w args tps i).has_timepoint = true →
      (sample_seq_slot R w args tps j).has_timepoint = true →
      5 * TICKS_PER_SECOND ≤ tps j - tps i := by
    intro i j hij hi hj
    have h1 := stamped_le_lasttimepoint hR w args tps hmono j i hij hi
    have h2 := (sample_seq_slot_has_timepoint hR w args tps j).mp hj
    omega
  refine ⟨sample_seq_slot_has_timepoint hR w args tps, ?_, ?_, hapart, ?_⟩
  · intro k hk
    have h : Double.ge (duration_count R (tps k - (sample_seq R w args tps k)._lasttimepoint))
        (Double.fin 5) = true := by
      rw [← sample_data_has_timepoint _ (args k)]
      exact hk
    constructor
    · rw [sample_seq_slot, sample_seq, sample_data_timepoint, if_pos h]
    · rw [sample_seq, sample_lasttimepoint, if_pos h]
  · intro k hk
    have h : ¬ Double.ge (duration_count R (tps k - (sample_seq R w args tps k)._lasttimepoint))
        (Double.fin 5) = true := by
      rw [← sample_data_has_timepoint _ (args k)]
      intro h'
      rw [sample_seq_slot, sample_seq, h'] at hk
      exact absurd hk (by decide)
    rw [sample_seq, sample_lasttimepoint, if_neg h]
  · intro i j hij hlt hboth
    exact absurd (hapart i j hij hboth.1 hboth.2) (not_le.mpr hlt)

/-- Calls on the example widget at 6 s, 8 s, 10 s and 12 s after the epoch, in
IEEE arithmetic: the calls at 6 s and 12 s are marked, and they are at least 5 s
apart. -/
theorem timepoint_marking_witness :
    (FloatModel.binary64 = FloatModel.exact ∨ FloatModel.binary64 = FloatModel.binary64) ∧
    (∀ k, example_timepoints k ≤ example_timepoints (k + 1)) ∧
    (sample_seq_slot FloatModel.binary64 example_plot (fun _ => 1) example_timepoints
      0).has_timepoint = true ∧
    (sample_seq_slot FloatModel.binary64 example_plot (fun _ => 1) example_timepoints
      3).has_timepoint = true ∧
    5 * TICKS_PER_SECOND ≤ example_timepoints 3 - example_timepoints 0 :=
  ⟨Or.inr rfl, fun k => by simp only [example_timepoints]; push_cast; omega,
   by decide!, by decide!,
   (timepoint_marking FloatModel.binary64 (Or.inr rfl) example_plot (fun _ => 1)
      example_timepoints
      (fun k => by simp only [example_timepoints]; push_cast; omega)).2.2.2.1 0 3
      (by decide) (by decide!) (by decide!)⟩

/-- C5: `sample` sets the changed flag; `update` requests a repaint exactly when
the flag is set and leaves the flag cleared, and without the flag it changes
nothing.  So after one or more `sample` calls the next `update` issues exactly
one request (the full allocation), and a second `update` right after it issues
none and leaves the state as it is. -/
theorem update_repaints_once_per_change (R : FloatModel) (w : CairoTSPlot α) (args : ℕ → α)
    (tps : ℕ → ℤ) (n : ℕ) (aw ah : ℤ) :
    (∀ arg t, (w.sample R arg t)._data_changed = true) ∧
    ((w.update aw ah).2 = [⟨0, 0, aw, ah⟩] ↔ w._data_changed = true) ∧
    ((w.update aw ah).2 = [] ↔ w._data_changed = false) ∧
    (w.update aw ah).1._data_changed = false ∧
    (w._data_changed = false → w.update aw ah = (w, [])) ∧
    ((sample_seq R w args tps (n + 1)).update aw ah).2 = [⟨0, 0, aw, ah⟩] ∧
    ((sample_seq R w args tps (n + 1)).update aw ah).2.length = 1 ∧
    (((sample_seq R w args tps (n + 1)).update aw ah).1.update aw ah).2 = [] ∧
    (((sample_seq R w args tps (n + 1)).update aw ah).1.update aw ah).1
      = ((sample_seq R w args tps (n + 1)).update aw ah).1 := by
  have hs : (sample_seq R w args tps (n + 1))._data_changed = true := rfl
  refine ⟨fun _ _ => rfl, ?_, ?_, ?_, ?_, ?_, ?_, ?_, ?_⟩
  · cases h : w._data_changed <;> simp [update, h]
  · cases h : w._data_changed <;> simp [update, h]
  · cases h : w._data_changed <;> simp [update, h]
  · intro h
    simp [update, h]
  · simp [update, hs]
  · simp [update, hs]
  · simp [update, hs]
  · simp [update, hs]

/-- An `update` of the example widget, whose changed flag is not set, is a
no-op. -/
theorem update_repaints_once_per_change_witness :
    example_plot._data_changed = false ∧
    example_plot.update 640 172 = (example_plot, []) :=
  ⟨rfl, (update_repaints_once_per_change FloatModel.binary64 example_plot (fun _ => 1)
      (fun _ => 0) 0 640 172).2.2.2.2.1 rfl⟩

/-- C10: the alert flag handed to the sampling function is the `is_alerted`
field already in the reserved slot (`false` in a slot never written), and the
flag stored is the one the function leaves.  If the function leaves the flag as
it found it, the slot's `is_alerted` after `sample` is what the slot held before;
so, the buffer having wrapped, the sample of call `n + 512` inherits the alert
state left by call `n` in the same slot.  Likewise the slot's stored time point
is unchanged when the new sample is not time-stamp bearing. -/
theorem sample_inherits_alert_flag (R : FloatModel) (w : CairoTSPlot α) (arg : α) (t : ℤ)
    (args : ℕ → α) (tps : ℕ → ℤ) (n : ℕ) :
    ((w.sample R arg t)._data (_circbuf_idx w._data_head)).is_alerted
      = (w._sample_fn arg (w._data (_circbuf_idx w._data_head)).is_alerted).2 ∧
    ((w.sample R arg t)._data (_circbuf_idx w._data_head)).value
      = (w._sample_fn arg (w._data (_circbuf_idx w._data_head)).is_alerted).1 ∧
    (∀ text fn m M step h0 j,
      ((create text fn m M step h0 : CairoTSPlot α)._data j).is_alerted = false) ∧
    ((w._sample_fn arg (w._data (_circbuf_idx w._data_head)).is_alerted).2
        = (w._data (_circbuf_idx w._data_head)).is_alerted →
      ((w.sample R arg t)._data (_circbuf_idx w._data_head)).is_alerted
        = (w._data (_circbuf_idx w._data_head)).is_alerted) ∧
    ((∀ b, (w._sample_fn (args (n + NUM_POINTS)) b).2 = b) →
      _circbuf_idx (sample_seq R w args tps (n + NUM_POINTS))._data_head
        = _circbuf_idx (sample_seq R w args tps n)._data_head ∧
      (sample_seq_slot R w args tps (n + NUM_POINTS)).is_alerted
        = (sample_seq_slot R w args tps n).is_alerted) ∧
    (((w.sample R arg t)._data (_circbuf_idx w._data_head)).has_timepoint = false →
      ((w.sample R arg t)._data (_circbuf_idx w._data_head)).timepoint
        = (w._data (_circbuf_idx w._data_head)).timepoint) := by
  refine ⟨sample_data_is_alerted w arg t, sample_data_value w arg t,
    fun _ _ _ _ _ _ _ => rfl, ?_, ?_, ?_⟩
  · intro h
    rw [sample_data_is_alerted, h]
  · intro hfn
    have hidx : _circbuf_idx (sample_seq R w args tps (n + NUM_POINTS))._data_head
        = _circbuf_idx (sample_seq R w args tps n)._data_head := by
      apply Fin.ext
      rw [sample_seq_idx, sample_seq_idx]
      simp only [NUM_POINTS]
      omega
    refine ⟨hidx, ?_⟩
    have hkeep := sample_seq_data_untouched (R := R) w args tps
      (_circbuf_idx (sample_seq R w args tps n)._data_head) (n + 1) (NUM_POINTS - 1) (by
        intro k h1 h2
        rw [sample_seq_idx]
        simp only [NUM_POINTS] at h2 ⊢
        omega)
    have hn : n + 1 + (NUM_POINTS - 1) = n + NUM_POINTS := by
      simp only [NUM_POINTS]
    rw [hn] at hkeep
    rw [sample_seq_slot, sample_seq, sample_data_is_alerted, sample_seq_sample_fn, hfn, hidx,
      hkeep]
    rfl
  · intro h
    rw [sample_data_has_timepoint] at h
    rw [sample_data_timepoint, if_neg (by rw [h]; decide)]

/-- On the example widget, whose sampling function never assigns the flag:
the slot written by call 512 carries the alert flag left there by call 0. -/
theorem sample_inherits_alert_flag_witness :
    (∀ b, (example_plot._sample_fn ((fun _ => (1 : ℚ)) (0 + NUM_POINTS)) b).2 = b) ∧
    (sample_seq_slot FloatModel.binary64 example_plot (fun _ => (1 : ℚ)) (fun _ => 0)
      (0 + NUM_POINTS)).is_alerted
      = (sample_seq_slot FloatModel.binary64 example_plot (fun _ => (1 : ℚ)) (fun _ => 0)
          0).is_alerted :=
  ⟨fun _ => rfl,
   ((sample_inherits_alert_flag FloatModel.binary64 example_plot 1 0 (fun _ => (1 : ℚ))
      (fun _ => 0) 0).2.2.2.2.1 (fun _ => rfl)).2⟩

end CairoTSPlot

/-! ## The coordinate transform -/

theorem trunc_of_nonneg {q : ℚ} (h : 0 ≤ q) : trunc q = ⌊q⌋ := if_pos h

theorem trunc_of_neg {q : ℚ} (h : q < 0) : trunc q = ⌈q⌉ := if_neg (not_le.mpr h)

/-- Truncation toward zero is monotone. -/
theorem trunc_mono {p q : ℚ} (h : p ≤ q) : trunc p ≤ trunc q := by
  rcases le_or_lt 0 p with hp | hp
  · rw [trunc_of_nonneg hp, trunc_of_nonneg (hp.trans h)]
    exact Int.floor_mono h
  · rcases le_or_lt 0 q with hq | hq
    · rw [trunc_of_neg hp, trunc_of_nonneg hq]
      have h1 : ⌈p⌉ ≤ 0 := Int.ceil_le.mpr (by exact_mod_cast hp.le)
      exact h1.trans (Int.floor_nonneg.mpr hq)
    · rw [trunc_of_neg hp, trunc_of_neg hq]
      exact Int.ceil_mono h

/-- Truncation toward zero of a natural number is that number. -/
theorem trunc_natCast (n : ℕ) : trunc (n : ℚ) = n := by
  rw [trunc_of_nonneg (Nat.cast_nonneg n)]
  exact Int.floor_natCast n

namespace CairoTSPlot

variable {α : Type} {R : FloatModel}

/-- With exact arithmetic and a non-zero span `max - min`, `yoffset_of` is the
truncation of `(value - min) / (max - min) * height`. -/
theorem yoffset_of_exact (w : CairoTSPlot α) (m M h v : ℚ) (hmin : w._value_min = Double.fin m)
    (hmax : w._value_max = Double.fin M) (hheight : w._data_height = Double.fin h)
    (hne : M - m ≠ 0) :
    w.yoffset_of FloatModel.exact (Double.fin v) = some (trunc ((v - m) / (M - m) * h)) := by
  simp [yoffset_of, hmin, hmax, hheight, Double.sub, Double.div, Double.mul, FloatModel.exact, hne]

/-- A quotient by zero is an infinity or NaN. -/
theorem div_zero_not_fin (R : FloatModel) (d : Double) :
    Double.div R d (Double.fin 0) = Double.nan ∨ Double.div R d (Double.fin 0) = Double.pinf ∨
      Double.div R d (Double.fin 0) = Double.ninf := by
  cases d with
  | fin a =>
    simp only [Double.div, if_true]
    split_ifs <;> simp
  | pinf => simp [Double.div]
  | ninf => simp [Double.div]
  | nan => simp [Double.div]

/-- The product of an infinity or NaN with any double is not finite. -/
theorem mul_not_fin (R : FloatModel) (d e : Double)
    (hd : d = Double.nan ∨ d = Double.pinf ∨ d = Double.ninf) (q : ℚ) :
    Double.mul R d e ≠ Double.fin q := by
  rcases hd with rfl | rfl | rfl <;> cases e <;> simp only [Double.mul] <;>
    first
      | exact Double.noConfusion
      | (split_ifs <;> exact Double.noConfusion)

/-- With a zero span `max - min` the operand of the `int` cast in `yoffset_of`
is not finite, so that the cast is undefined. -/
theorem yoffset_of_zero_span (R : FloatModel) (w : CairoTSPlot α) (value : Double)
    (hspan : Double.sub R w._value_max w._value_min = Double.fin 0) :
    w.yoffset_of R value = none := by
  have h := mul_not_fin R _ w._data_height
    (div_zero_not_fin R (Double.sub R value w._value_min))
  rw [yoffset_of, hspan]
  split
  · rename_i q hq
    exact absurd hq (h q)
  · rfl

/-- C2: with `max > min` and a plotted height `≥ 0`, arithmetic taken exactly
and the `int` cast being truncation toward zero: for every value `v` with
`min ≤ v ≤ max`, `yoffset_of v` is defined and lies in `[0, height]`, and
`yoffset_of` is monotonic non-decreasing on `[min, max]`. -/
theorem yoffset_of_range_and_monotone (w : CairoTSPlot α) (m M h : ℚ)
    (hmin : w._value_min = Double.fin m) (hmax : w._value_max = Double.fin M)
    (hheight : w._data_height = Double.fin h) (hlt : m < M) (hh : 0 ≤ h) :
    (∀ v, m ≤ v → v ≤ M →
      ∃ y, w.yoffset_of FloatModel.exact (Double.fin v) = some y ∧ 0 ≤ y ∧ (y : ℚ) ≤ h) ∧
    (∀ v1 v2, m ≤ v1 → v1 ≤ v2 → v2 ≤ M →
      ∃ y1 y2, w.yoffset_of FloatModel.exact (Double.fin v1) = some y1 ∧
        w.yoffset_of FloatModel.exact (Double.fin v2) = some y2 ∧ y1 ≤ y2) := by
  have hpos : 0 < M - m := sub_pos.mpr hlt
  have hne : M - m ≠ 0 := hpos.ne'
  constructor
  · intro v hv1 hv2
    have h0 : 0 ≤ (v - m) / (M - m) * h :=
      mul_nonneg (div_nonneg (sub_nonneg.mpr hv1) hpos.le) hh
    have h1 : (v - m) / (M - m) * h ≤ h := by
      have hq : (v - m) / (M - m) ≤ 1 := (div_le_one hpos).mpr (by linarith)
      calc (v - m) / (M - m) * h ≤ 1 * h := mul_le_mul_of_nonneg_right hq hh
        _ = h := one_mul h
    refine ⟨_, yoffset_of_exact w m M h v hmin hmax hheight hne, ?_, ?_⟩
    · rw [trunc_of_nonneg h0]
      exact Int.floor_nonneg.mpr h0
    · rw [trunc_of_nonneg h0]
      exact (Int.floor_le _).trans h1
  · intro v1 v2 _ h12 _
    refine ⟨_, _, yoffset_of_exact w m M h v1 hmin hmax hheight hne,
      yoffset_of_exact w m M h v2 hmin hmax hheight hne, trunc_mono ?_⟩
    exact mul_le_mul_of_nonneg_right
      (div_le_div_of_nonneg_right (by linarith) hpos.le) hh

/-- On the example widget (domain `[0, 100]`, plotted height 100) the value 50
is mapped into `[0, 100]`. -/
theorem yoffset_of_range_and_monotone_witness :
    example_plot._value_min = Double.fin 0 ∧ example_plot._value_max = Double.fin 100 ∧
    example_plot._data_height = Double.fin 100 ∧ (0 : ℚ) < 100 ∧ (0 : ℚ) ≤ 100 ∧
    (0 : ℚ) ≤ 50 ∧ (50 : ℚ) ≤ 100 ∧
    ∃ y, example_plot.yoffset_of FloatModel.exact (Double.fin 50) = some y ∧ 0 ≤ y ∧
      (y : ℚ) ≤ 100 :=
  ⟨rfl, rfl, by decide!, by norm_num, by norm_num, by norm_num, by norm_num,
   (yoffset_of_range_and_monotone example_plot 0 100 100 rfl rfl (by decide!) (by norm_num)
      (by norm_num)).1 50 (by norm_num) (by norm_num)⟩

/-- C6, as stated, fails: on the example widget (`max > min`, plotted height
100) the value `-1/2` has `yoffset_of = 0`, with exact and with IEEE arithmetic,
while the floor of `(value - min) / (max - min) * height = -1/2` is `-1`. -/
theorem yoffset_of_is_not_floor :
    example_plot.yoffset_of FloatModel.exact (Double.fin (-1 / 2)) = some 0 ∧
    example_plot.yoffset_of FloatModel.binary64 (Double.fin (-1 / 2)) = some 0 ∧
    ⌊((-1 / 2 : ℚ) - 0) / (100 - 0) * 100⌋ = -1 ∧
    example_plot.yoffset_of FloatModel.exact (Double.fin (-1 / 2))
      ≠ some ⌊((-1 / 2 : ℚ) - 0) / (100 - 0) * 100⌋ := by
  decide!

/-- C6, amended: with `max > min` and arithmetic taken exactly, `yoffset_of`
of a finite value, inside or outside `[min, max]` (no clamping), is
`(value - min) / (max - min) * height` truncated toward zero.  This is the floor
when the product is non-negative, in particular for `value ≥ min` and
`height ≥ 0`, and the ceiling when the product is negative.  In IEEE arithmetic
a defined result is likewise the truncation toward zero of the (rounded)
product, and it is an `int`. -/
theorem yoffset_of_exact_is_truncation (w : CairoTSPlot α) (m M h v : ℚ)
    (hmin : w._value_min = Double.fin m) (hmax : w._value_max = Double.fin M)
    (hheight : w._data_height = Double.fin h) (hlt : m < M) :
    w.yoffset_of FloatModel.exact (Double.fin v) = some (trunc ((v - m) / (M - m) * h)) ∧
    (0 ≤ (v - m) / (M - m) * h →
      w.yoffset_of FloatModel.exact (Double.fin v) = some ⌊(v - m) / (M - m) * h⌋) ∧
    (m ≤ v → 0 ≤ h →
      w.yoffset_of FloatModel.exact (Double.fin v) = some ⌊(v - m) / (M - m) * h⌋) ∧
    ((v - m) / (M - m) * h < 0 →
      w.yoffset_of FloatModel.exact (Double.fin v) = some ⌈(v - m) / (M - m) * h⌉) ∧
    (∀ y, w.yoffset_of FloatModel.binary64 (Double.fin v) = some y →
      ∃ p, Double.mul FloatModel.binary64
          (Double.div FloatModel.binary64 (Double.sub FloatModel.binary64 (Double.fin v)
            w._value_min) (Double.sub FloatModel.binary64 w._value_max w._value_min))
          w._data_height = Double.fin p ∧
        y = trunc p ∧ INT_MIN ≤ y ∧ y ≤ INT_MAX) := by
  have hpos : 0 < M - m := sub_pos.mpr hlt
  have hy := yoffset_of_exact w m M h v hmin hmax hheight hpos.ne'
  refine ⟨hy, ?_, ?_, ?_, ?_⟩
  · intro h0
    rw [hy, trunc_of_nonneg h0]
  · intro hv hh
    rw [hy, trunc_of_nonneg (mul_nonneg (div_nonneg (sub_nonneg.mpr hv) hpos.le) hh)]
  · intro h0
    rw [hy, trunc_of_neg h0]
  · intro y hy64
    unfold yoffset_of at hy64
    split at hy64
    · rename_i p hp
      simp only [FloatModel.binary64] at hy64
      split_ifs at hy64 with hrange
      obtain rfl := Option.some.inj hy64
      exact ⟨p, hp, rfl, hrange.1, hrange.2⟩
    · exact absurd hy64 (by simp)

/-- On the example widget the value 250, above `max`, is mapped to the floor
of `250 / 100 * 100`. -/
theorem yoffset_of_exact_is_truncation_witness :
    example_plot._value_min = Double.fin 0 ∧ example_plot._value_max = Double.fin 100 ∧
    example_plot._data_height = Double.fin 100 ∧ (0 : ℚ) < 100 ∧ (0 : ℚ) ≤ 250 ∧
    (0 : ℚ) ≤ 100 ∧
    example_plot.yoffset_of FloatModel.exact (Double.fin 250)
      = some ⌊((250 : ℚ) - 0) / (100 - 0) * 100⌋ :=
  ⟨rfl, rfl, by decide!, by norm_num, by norm_num, by norm_num,
   (yoffset_of_exact_is_truncation example_plot 0 100 100 250 rfl rfl (by decide!)
      (by norm_num)).2.2.1 (by norm_num) (by norm_num)⟩

/-- C7, as stated, fails in the double arithmetic of the code: with domain
`[0, 100]` and plotted height 100 the integer value 29 is mapped to 28, because
`29 / 100` rounds to a double below `0.29` and its product with 100 rounds to
`29 - 2 ^ (-48)`, which the cast truncates. -/
theorem yoffset_of_29_is_28 :
    example_plot._value_min = Double.fin 0 ∧ example_plot._value_max = Double.fin 100 ∧
    example_plot._data_height = Double.fin 100 ∧
    Double.div FloatModel.binary64 (Double.fin 29) (Double.fin 100)
      = Double.fin (5224175567749775 / 18014398509481984) ∧
    Double.mul FloatModel.binary64 (Double.fin (5224175567749775 / 18014398509481984))
      (Double.fin 100) = Double.fin (8162774324609023 / 281474976710656) ∧
    example_plot.yoffset_of FloatModel.binary64 (Double.fin 29) = some 28 ∧
    example_plot.yoffset_of FloatModel.binary64 (Double.fin 29) ≠ some 29 := by
  decide!

/-- C7, amended: with domain `[0, 100]` and plotted height 100, the samples
10, 50, 90 and 200 are mapped to the offsets 10, 50, 90 and 200 in the double
arithmetic of the code, the last one above `max` and not clamped; and with
arithmetic taken exactly every non-negative integer value is mapped to
itself. -/
theorem yoffset_of_example_samples :
    example_plot.yoffset_of FloatModel.binary64 (Double.fin 10) = some 10 ∧
    example_plot.yoffset_of FloatModel.binary64 (Double.fin 50) = some 50 ∧
    example_plot.yoffset_of FloatModel.binary64 (Double.fin 90) = some 90 ∧
    example_plot.yoffset_of FloatModel.binary64 (Double.fin 200) = some 200 ∧
    ∀ v : ℕ, example_plot.yoffset_of FloatModel.exact (Double.fin (v : ℚ)) = some (v : ℤ) := by
  refine ⟨by decide!, by decide!, by decide!, by decide!, fun v => ?_⟩
  rw [yoffset_of_exact example_plot 0 100 100 v rfl rfl (by decide!) (by norm_num)]
  have hv : ((v : ℚ) - 0) / (100 - 0) * 100 = (v : ℚ) := by ring
  rw [hv, trunc_natCast]

/-- C3, as stated, fails: the constructor accepts `min = max = 0` and returns a
widget; on it the span `max - min` is zero and the `int` cast of `yoffset_of` is
applied to the infinity `50 / 0 * 100`, which is undefined. -/
theorem create_accepts_equal_bounds :
    (create "plot" pass_through_fn (Double.fin 0) (Double.fin 0) (Double.fin 0)
      (Double.fin 100))._value_min = Double.fin 0 ∧
    (create "plot" pass_through_fn (Double.fin 0) (Double.fin 0) (Double.fin 0)
      (Double.fin 100))._value_max = Double.fin 0 ∧
    Double.sub FloatModel.binary64 (Double.fin 0) (Double.fin 0) = Double.fin 0 ∧
    Double.mul FloatModel.binary64
      (Double.div FloatModel.binary64 (Double.fin 50) (Double.fin 0)) (Double.fin 100)
      = Double.pinf ∧
    (create "plot" pass_through_fn (Double.fin 0) (Double.fin 0) (Double.fin 0)
      (Double.fin 100)).yoffset_of FloatModel.binary64 (Double.fin 50) = none := by
  decide!

/-- C3, amended: the constructor performs no check of its arguments: for all
`min` and `max` it returns a widget storing them as given.  `max > min` is an
unchecked precondition: on a widget constructed with finite `min = max` the span
`max - min` is zero and `yoffset_of` is undefined for every value, in exact and
in IEEE arithmetic. -/
theorem create_stores_bounds_unchecked (text : String) (fn : sample_fn_t α)
    (m M step h0 value : Double) (q : ℚ) :
    (create text fn m M step h0)._value_min = m ∧
    (create text fn m M step h0)._value_max = M ∧
    (create text fn (Double.fin q) (Double.fin q) step h0).yoffset_of FloatModel.exact value
      = none ∧
    (create text fn (Double.fin q) (Double.fin q) step h0).yoffset_of FloatModel.binary64 value
      = none := by
  refine ⟨rfl, rfl, yoffset_of_zero_span _ _ _ ?_, yoffset_of_zero_span _ _ _ ?_⟩
  · simp [create, Double.sub, FloatModel.exact]
  · simp [create, Double.sub, FloatModel.binary64, round64]

end CairoTSPlot
